import Mathlib

/-!
# io_pin_remap.h

The repository is one C header made of preprocessor directives only.  The
embedding below has two layers:

* the header itself, transcribed directive by directive (comments are removed
  in translation phase 3, before directives are recognised, so they do not
  appear);
* the part of the C preprocessor that the header exercises: object-like
  macro definitions, the conditional group opened by `#ifndef` and closed by
  `#endif`, file inclusion, and the rescanning macro expansion by which a
  symbol "resolves" to a value at a point of use.

The contents of `<stdint.h>` are not part of the repository; the effect of
including a file on the macro table is a parameter of the model.
-/

namespace IoPinRemap

/-- Preprocessing tokens that occur in replacement lists. -/
inductive Tok where
  | ident (name : String)
  | num (value : Nat)
  | punct (spelling : String)
  deriving DecidableEq, Repr

/-- The directives that occur in the header. -/
inductive Directive where
  | ifndef (name : String)
  | define (name : String) (body : List Tok)
  | include (file : String)
  | endif
  deriving DecidableEq, Repr

/-- The macro table: the most recent definition of a name comes first. -/
abbrev Table := List (String × List Tok)

/-- Effect on the macro table of including a file that is not in the
repository. -/
abbrev Includes := String → Table → Table

/-- Preprocessor state: the macro table and the stack of open conditional
groups (innermost first, `true` when the group's condition held). -/
structure PP where
  table : Table
  conds : List Bool
  deriving DecidableEq, Repr

/-- Replacement list of a macro, `none` when the name is not defined. -/
def lookup (t : Table) (name : String) : Option (List Tok) :=
  match t with
  | [] => none
  | (k, body) :: rest => if k = name then some body else lookup rest name

/-- The test made by `#ifdef`, `#ifndef` and `defined`. -/
def isDefined (t : Table) (name : String) : Bool :=
  (lookup t name).isSome

/-- Directives are obeyed only when every enclosing group is taken. -/
def PP.active (s : PP) : Bool :=
  s.conds.all id

/-- One directive.  A group opened by `#ifndef` is taken when the name is not
defined; `#define` puts the new definition in front of the table, where it
shadows an earlier one of the same name; a directive inside a group that is
not taken changes nothing. -/
def step (inc : Includes) (s : PP) : Directive → PP
  | .ifndef name => { s with conds := (!isDefined s.table name) :: s.conds }
  | .endif => { s with conds := s.conds.tail }
  | .define name body =>
      if s.active then { s with table := (name, body) :: s.table } else s
  | .include file =>
      if s.active then { s with table := inc file s.table } else s

/-- A sequence of directives, in order. -/
def run (inc : Includes) (s : PP) (ds : List Directive) : PP :=
  ds.foldl (step inc) s

/-- The include guard of the header. -/
def guard : String := "io_pin_remap_h"

def BOARD_HAS_SDMMC : String := "BOARD_HAS_SDMMC"
def SDMMC_D2 : String := "SDMMC_D2"
def SDMMC_D3 : String := "SDMMC_D3"
def SDMMC_CMD : String := "SDMMC_CMD"
def SDMMC_CLK : String := "SDMMC_CLK"
def SDMMC_D0 : String := "SDMMC_D0"
def SDMMC_D1 : String := "SDMMC_D1"
def BOARD_MAX_SDMMC_FREQ : String := "BOARD_MAX_SDMMC_FREQ"
def SDMMC_FREQ_DEFAULT : String := "SDMMC_FREQ_DEFAULT"
def ASYNCWEBSERVER_REGEX : String := "ASYNCWEBSERVER_REGEX"

/-- The file io_pin_remap.h, line by line. -/
def header : List Directive :=
  [ .ifndef guard,
    .define guard [],
    .include "stdint.h",
    .define BOARD_HAS_SDMMC [],
    .define SDMMC_D2 [.num 12],
    .define SDMMC_D3 [.num 13],
    .define SDMMC_CMD [.num 15],
    .define SDMMC_CLK [.num 14],
    .define SDMMC_D0 [.num 2],
    .define SDMMC_D1 [.num 4],
    .define BOARD_MAX_SDMMC_FREQ [.ident SDMMC_FREQ_DEFAULT],
    .define ASYNCWEBSERVER_REGEX [],
    .endif ]

/-- Macro table after `#include "io_pin_remap.h"` at file level, starting
from table `t`. -/
def includeHeader (inc : Includes) (t : Table) : Table :=
  (run inc { table := t, conds := [] } header).table

/-- The six pin symbols of the SDCARD slot, in the order of the file. -/
def sdmmcPins : List String :=
  [SDMMC_D2, SDMMC_D3, SDMMC_CMD, SDMMC_CLK, SDMMC_D0, SDMMC_D1]

/-- One pass over a token list.  A name that is being replaced (it is in
`hidden`) or that is not a macro stays as it is; a macro is replaced by the
rescan of its replacement list, done by `rescan` with the name hidden. -/
def expandWith (rescan : List String → List Tok → Option (List Tok))
    (t : Table) (hidden : List String) : List Tok → Option (List Tok)
  | [] => some []
  | .ident x :: rest =>
      let first :=
        if x ∈ hidden then some [Tok.ident x]
        else match lookup t x with
          | none => some [Tok.ident x]
          | some body => rescan (x :: hidden) body
      first.bind fun a => (expandWith rescan t hidden rest).map fun b => a ++ b
  | tok :: rest => (expandWith rescan t hidden rest).map fun b => tok :: b

/-- Macro expansion with at most `depth` nested replacements; `none` when
the bound is reached. -/
def expand : Nat → Table → List String → List Tok → Option (List Tok)
  | 0, t, hidden, toks => expandWith (fun _ _ => none) t hidden toks
  | depth + 1, t, hidden, toks => expandWith (expand depth t) t hidden toks

/-- What a symbol stands for at a point where the macro table is `t`.  A
nested replacement hides one more defined name, so the nesting never exceeds
the size of the table. -/
def resolve (t : Table) (name : String) : Option (List Tok) :=
  expand t.length t [] [.ident name]

/-- The integer a symbol resolves to, when it resolves to one number. -/
def pinNumber (t : Table) (name : String) : Option Nat :=
  match resolve t name with
  | some [.num n] => some n
  | _ => none

/-- A token list that mentions no macro of `t`. -/
def fullyExpanded (t : Table) (v : List Tok) : Prop :=
  ∀ x, Tok.ident x ∈ v → lookup t x = none

/-- The included file does not undefine the name. -/
def keepsDefined (inc : Includes) (file name : String) : Prop :=
  ∀ t, isDefined t name = true → isDefined (inc file t) name = true

/-- An included file that defines one limit macro. -/
def stdintSample : Includes := fun file t =>
  if file = "stdint.h" then ("INT8_MAX", [Tok.num 127]) :: t else t

/-- Replacement of one token, as a pass of `expandWith` computes it. -/
def expandHead (rescan : List String → List Tok → Option (List Tok))
    (t : Table) (hidden : List String) : Tok → Option (List Tok)
  | .ident x =>
      if x ∈ hidden then some [Tok.ident x]
      else match lookup t x with
        | none => some [Tok.ident x]
        | some body => rescan (x :: hidden) body
  | tok => some [tok]

/-- The rescanning function that `expand` hands to `expandWith`. -/
def rescanAt (t : Table) : Nat → List String → List Tok → Option (List Tok)
  | 0 => fun _ _ => none
  | depth + 1 => expand depth t

/-- Number of macros of the table that are not hidden. -/
def avail (t : Table) (hs : List String) : Nat :=
  ((t.map Prod.fst).toFinset \ hs.toFinset).card

/-! ## Macro expansion -/

theorem expandWith_nil (r) (t : Table) (hs : List String) :
    expandWith r t hs [] = some [] := rfl

theorem expandWith_cons (r) (t : Table) (hs : List String) (tok : Tok) (rest : List Tok) :
    expandWith r t hs (tok :: rest) =
      (expandHead r t hs tok).bind fun a => (expandWith r t hs rest).map fun b => a ++ b := by
  cases tok <;> simp [expandWith, expandHead]

theorem expandWith_cons_some (r) (t : Table) (hs : List String) (tok : Tok) (rest v : List Tok) :
    expandWith r t hs (tok :: rest) = some v ↔
      ∃ a b, expandHead r t hs tok = some a ∧ expandWith r t hs rest = some b ∧ v = a ++ b := by
  rw [expandWith_cons]
  constructor
  · intro h
    cases ha : expandHead r t hs tok with
    | none => simp [ha] at h
    | some a =>
      cases hb : expandWith r t hs rest with
      | none => simp [ha, hb] at h
      | some b =>
        simp [ha, hb] at h
        exact ⟨a, b, rfl, rfl, h.symm⟩
  · rintro ⟨a, b, ha, hb, rfl⟩
    simp [ha, hb]

theorem expand_eq (d : Nat) (t : Table) (hs : List String) (toks : List Tok) :
    expand d t hs toks = expandWith (rescanAt t d) t hs toks := by
  cases d <;> rfl

theorem fullyExpanded_append {t : Table} {a b : List Tok} :
    fullyExpanded t (a ++ b) ↔ fullyExpanded t a ∧ fullyExpanded t b := by
  unfold fullyExpanded
  constructor
  · intro h
    exact ⟨fun x hx => h x (List.mem_append.2 (Or.inl hx)),
      fun x hx => h x (List.mem_append.2 (Or.inr hx))⟩
  · rintro ⟨h1, h2⟩ x hx
    rcases List.mem_append.1 hx with hx | hx
    · exact h1 x hx
    · exact h2 x hx

/-- Changing the rescanning function and the hidden names does not change a
result, as long as every replacement the pass makes has the same result. -/
theorem expandWith_transfer (t : Table) (r1 r2) (hs1 hs2 : List String)
    (good : List Tok → Prop) (good_app : ∀ a b, good (a ++ b) → good a ∧ good b)
    (hhead : ∀ tok a, expandHead r1 t hs1 tok = some a → good a →
      expandHead r2 t hs2 tok = some a) :
    ∀ toks v, expandWith r1 t hs1 toks = some v → good v →
      expandWith r2 t hs2 toks = some v := by
  intro toks
  induction toks with
  | nil => intro v h _; simpa [expandWith_nil] using h
  | cons tok rest ih =>
    intro v h hv
    rw [expandWith_cons_some] at h ⊢
    obtain ⟨a, b, ha, hb, rfl⟩ := h
    obtain ⟨ga, gb⟩ := good_app a b hv
    exact ⟨a, b, hhead tok a ha ga, ih b hb gb, rfl⟩

theorem expandHead_hidden (r) (t : Table) {hs : List String} {x : String} (h : x ∈ hs) :
    expandHead r t hs (.ident x) = some [.ident x] := by
  simp [expandHead, h]

theorem expandHead_undef (r) (t : Table) {hs : List String} {x : String} (h : x ∉ hs)
    (hx : lookup t x = none) : expandHead r t hs (.ident x) = some [.ident x] := by
  simp [expandHead, h, hx]

theorem expandHead_defined (r) (t : Table) {hs : List String} {x : String} {body : List Tok}
    (h : x ∉ hs) (hx : lookup t x = some body) :
    expandHead r t hs (.ident x) = r (x :: hs) body := by
  simp [expandHead, h, hx]

/-- The head of a list is replaced in the same way by two rescanning
functions that agree wherever the first one gives a result. -/
theorem expandHead_mono (t : Table) (r1 r2) (hs : List String)
    (hr : ∀ x body a, x ∉ hs → lookup t x = some body →
      r1 (x :: hs) body = some a → r2 (x :: hs) body = some a)
    (tok : Tok) (a : List Tok) (ha : expandHead r1 t hs tok = some a) :
    expandHead r2 t hs tok = some a := by
  cases tok with
  | ident x =>
    by_cases hx : x ∈ hs
    · rw [expandHead_hidden _ _ hx] at ha ⊢; exact ha
    · cases hl : lookup t x with
      | none => rw [expandHead_undef _ _ hx hl] at ha ⊢; exact ha
      | some body =>
        rw [expandHead_defined _ _ hx hl] at ha ⊢
        exact hr x body a hx hl ha
  | num n => exact ha
  | punct p => exact ha

theorem expandWith_mono (t : Table) (r1 r2) (hs : List String)
    (hr : ∀ x body a, x ∉ hs → lookup t x = some body →
      r1 (x :: hs) body = some a → r2 (x :: hs) body = some a)
    (toks v : List Tok) (h : expandWith r1 t hs toks = some v) :
    expandWith r2 t hs toks = some v :=
  expandWith_transfer t r1 r2 hs hs (fun _ => True) (fun _ _ _ => ⟨trivial, trivial⟩)
    (fun tok a ha _ => expandHead_mono t r1 r2 hs hr tok a ha) toks v h trivial

theorem expand_succ (t : Table) : ∀ d hs toks v,
    expand d t hs toks = some v → expand (d + 1) t hs toks = some v := by
  intro d
  induction d with
  | zero =>
    intro hs toks v h
    rw [expand_eq] at h ⊢
    refine expandWith_mono t _ _ hs ?_ toks v h
    intro x body a _ _ ha
    simp [rescanAt] at ha
  | succ d ih =>
    intro hs toks v h
    rw [expand_eq] at h ⊢
    refine expandWith_mono t _ _ hs ?_ toks v h
    intro x body a _ _ ha
    exact ih _ _ _ ha

theorem expand_le (t : Table) {d e : Nat} (hde : d ≤ e) (hs toks v)
    (h : expand d t hs toks = some v) : expand e t hs toks = some v := by
  induction hde with
  | refl => exact h
  | step _ ih => exact expand_succ t _ _ _ _ ih

theorem mem_keys_of_lookup {t : Table} {x : String} {body : List Tok}
    (h : lookup t x = some body) : x ∈ t.map Prod.fst := by
  induction t with
  | nil => simp [lookup] at h
  | cons e rest ih =>
    obtain ⟨k, b⟩ := e
    by_cases hk : k = x
    · simp [hk]
    · simp only [lookup, hk, if_false] at h
      simp [ih h]

theorem avail_cons {t : Table} {hs : List String} {x : String} {body : List Tok}
    (hx : x ∉ hs) (hl : lookup t x = some body) :
    avail t (x :: hs) + 1 = avail t hs := by
  unfold avail
  have hmem : x ∈ (t.map Prod.fst).toFinset \ hs.toFinset := by
    simp [Finset.mem_sdiff, mem_keys_of_lookup hl, hx]
  have heq : (t.map Prod.fst).toFinset \ (x :: hs).toFinset =
      ((t.map Prod.fst).toFinset \ hs.toFinset).erase x := by
    ext y
    simp only [List.toFinset_cons, Finset.mem_sdiff, Finset.mem_insert, Finset.mem_erase,
      List.mem_toFinset]
    tauto
  rw [heq, Finset.card_erase_of_mem hmem]
  have := Finset.card_pos.2 ⟨x, hmem⟩
  omega

theorem avail_nil_le (t : Table) : avail t [] ≤ t.length := by
  unfold avail
  simpa using List.toFinset_card_le (t.map Prod.fst)

/-- A result found at any depth is found at the depth given by the number of
macros that are not hidden. -/
theorem expand_avail (t : Table) : ∀ d hs toks v,
    expand d t hs toks = some v → expand (avail t hs) t hs toks = some v := by
  intro d
  induction d with
  | zero =>
    intro hs toks v h
    rw [expand_eq] at h ⊢
    refine expandWith_mono t _ _ hs ?_ toks v h
    intro x body a _ _ ha
    simp [rescanAt] at ha
  | succ d ih =>
    intro hs toks v h
    rw [expand_eq] at h ⊢
    refine expandWith_mono t _ _ hs ?_ toks v h
    intro x body a hx hl ha
    rw [← avail_cons hx hl]
    exact ih _ _ _ ha

/-- A pass gives a result when every replacement it makes does. -/
theorem expandWith_total (t : Table) (r) (hs : List String)
    (hr : ∀ x body, x ∉ hs → lookup t x = some body → ∃ a, r (x :: hs) body = some a) :
    ∀ toks, ∃ v, expandWith r t hs toks = some v := by
  intro toks
  induction toks with
  | nil => exact ⟨[], rfl⟩
  | cons tok rest ih =>
    obtain ⟨b, hb⟩ := ih
    have hd : ∃ a, expandHead r t hs tok = some a := by
      cases tok with
      | ident x =>
        by_cases hx : x ∈ hs
        · exact ⟨_, expandHead_hidden _ _ hx⟩
        · cases hl : lookup t x with
          | none => exact ⟨_, expandHead_undef _ _ hx hl⟩
          | some body =>
            obtain ⟨a, ha⟩ := hr x body hx hl
            exact ⟨a, by rw [expandHead_defined _ _ hx hl]; exact ha⟩
      | num n => exact ⟨_, rfl⟩
      | punct p => exact ⟨_, rfl⟩
    obtain ⟨a, ha⟩ := hd
    exact ⟨a ++ b, (expandWith_cons_some _ _ _ _ _ _).2 ⟨a, b, ha, hb, rfl⟩⟩

/-- Expansion gives a result: the depth `avail t hs` is always enough. -/
theorem expand_total (t : Table) : ∀ n hs toks, avail t hs ≤ n →
    ∃ v, expand n t hs toks = some v := by
  intro n
  induction n with
  | zero =>
    intro hs toks hn
    rw [expand_eq]
    refine expandWith_total t _ hs ?_ toks
    intro x body hx hl
    have := avail_cons hx hl
    omega
  | succ n ih =>
    intro hs toks hn
    rw [expand_eq]
    refine expandWith_total t _ hs ?_ toks
    intro x body hx hl
    have := avail_cons hx hl
    exact ih (x :: hs) body (by omega)

/-- Resolution of a symbol always gives a result. -/
theorem resolve_total (t : Table) (name : String) : ∃ v, resolve t name = some v :=
  expand_total t t.length [] _ (avail_nil_le t)

/-- Hiding `b` as well does not change a result that is free of macros, when
`b` stands for `s` and `s` is a hidden macro: the expansion never met `b`,
for it would have left `s` in the result. -/
theorem expand_hide (t : Table) (b s : String) (sbody : List Tok)
    (hb : lookup t b = some [.ident s]) (hs_def : lookup t s = some sbody) :
    ∀ d hs hs2 toks v, s ∈ hs → (∀ y, y ∈ hs2 ↔ y = b ∨ y ∈ hs) →
      expand d t hs toks = some v → fullyExpanded t v → expand d t hs2 toks = some v := by
  have key : ∀ d, (∀ hs hs2 body a, s ∈ hs → (∀ y, y ∈ hs2 ↔ y = b ∨ y ∈ hs) →
        rescanAt t d hs body = some a → fullyExpanded t a →
        rescanAt t d hs2 body = some a) →
      ∀ hs hs2 toks v, s ∈ hs → (∀ y, y ∈ hs2 ↔ y = b ∨ y ∈ hs) →
        expand d t hs toks = some v → fullyExpanded t v → expand d t hs2 toks = some v := by
    intro d hr hs hs2 toks v hsin hrel h hv
    rw [expand_eq] at h ⊢
    refine expandWith_transfer t _ _ hs hs2 (fullyExpanded t)
      (fun a c hac => fullyExpanded_append.1 hac) ?_ toks v h hv
    intro tok a ha hfree
    cases tok with
    | ident x =>
      by_cases hx : x ∈ hs
      · rw [expandHead_hidden _ _ hx] at ha
        rw [expandHead_hidden _ _ ((hrel x).2 (Or.inr hx))]
        exact ha
      · cases hl : lookup t x with
        | none =>
          rw [expandHead_undef _ _ hx hl] at ha
          by_cases hx2 : x ∈ hs2
          · rw [expandHead_hidden _ _ hx2]; exact ha
          · rw [expandHead_undef _ _ hx2 hl]; exact ha
        | some body =>
          rw [expandHead_defined _ _ hx hl] at ha
          by_cases hxb : x = b
          · subst hxb
            exfalso
            rw [hb] at hl
            cases hl
            have hsin2 : s ∈ x :: hs := List.mem_cons_of_mem _ hsin
            cases d with
            | zero => simp [rescanAt] at ha
            | succ d =>
              simp only [rescanAt] at ha
              rw [expand_eq, expandWith_cons_some] at ha
              obtain ⟨a1, a2, h1, h2, rfl⟩ := ha
              rw [expandHead_hidden _ _ hsin2] at h1
              cases h1
              have := hfree s (by simp)
              rw [hs_def] at this
              cases this
          · have hx2 : x ∉ hs2 := by
              intro hmem
              rcases (hrel x).1 hmem with h1 | h1
              · exact hxb h1
              · exact hx h1
            rw [expandHead_defined _ _ hx2 hl]
            refine hr (x :: hs) (x :: hs2) body a (List.mem_cons_of_mem _ hsin) ?_ ha hfree
            intro y
            simp only [List.mem_cons, hrel y]
            tauto
    | num n => exact ha
    | punct p => exact ha
  intro d
  induction d with
  | zero =>
    apply key
    intro hs hs2 body a _ _ ha
    simp [rescanAt] at ha
  | succ d ih =>
    apply key
    intro hs hs2 body a hsin hrel ha hfree
    exact ih hs hs2 body a hsin hrel ha hfree

/-- Expansion of a single name that is a macro, one level down. -/
theorem expand_defined (t : Table) (d : Nat) (hs : List String) (x : String) (body : List Tok)
    (hx : x ∉ hs) (hl : lookup t x = some body) :
    expand (d + 1) t hs [.ident x] = expand d t (x :: hs) body := by
  rw [expand_eq, expandWith_cons, expandHead_defined _ _ hx hl]
  simp only [rescanAt, expandWith_nil]
  cases expand d t (x :: hs) body <;> simp

theorem expand_undef (t : Table) (d : Nat) (hs : List String) (x : String)
    (hl : lookup t x = none) :
    expand d t hs [.ident x] = some [.ident x] := by
  rw [expand_eq, expandWith_cons]
  by_cases hx : x ∈ hs
  · rw [expandHead_hidden _ _ hx]; rfl
  · rw [expandHead_undef _ _ hx hl]; rfl

theorem expand_hidden (t : Table) (d : Nat) (hs : List String) (x : String)
    (hx : x ∈ hs) :
    expand d t hs [.ident x] = some [.ident x] := by
  rw [expand_eq, expandWith_cons, expandHead_hidden _ _ hx]; rfl

/-- A macro whose replacement list is just another name resolves to whatever
that name resolves to, provided that result is free of macros. -/
theorem resolve_alias (t : Table) (b s : String) (v : List Tok) (hne : b ≠ s)
    (hb : lookup t b = some [.ident s]) (hv : resolve t s = some v) (hfree : fullyExpanded t v) :
    resolve t b = some v := by
  unfold resolve at hv ⊢
  have hlen := avail_nil_le t
  have h1 := avail_cons (List.not_mem_nil b) hb
  cases hs : lookup t s with
  | none =>
    rw [expand_undef t _ _ _ hs] at hv
    obtain ⟨k, hk⟩ : ∃ k, t.length = k + 1 := ⟨t.length - 1, by omega⟩
    rw [hk, expand_defined t k [] b _ (List.not_mem_nil b) hb, expand_undef t _ _ _ hs]
    exact hv
  | some sbody =>
    have hsb : s ∉ [b] := by simpa using fun h => hne h.symm
    have h2 := avail_cons hsb hs
    obtain ⟨k, hk⟩ : ∃ k, t.length = k + 2 := ⟨t.length - 2, by omega⟩
    rw [hk] at hv ⊢
    rw [expand_defined t (k + 1) [] s _ (List.not_mem_nil s) hs] at hv
    rw [expand_defined t (k + 1) [] b _ (List.not_mem_nil b) hb, expand_defined t k [b] s _ hsb hs]
    have h3 := expand_hide t b s sbody hb hs (k + 1) [s] [s, b] sbody v (by simp)
      (by intro y; simp; tauto) hv hfree
    have h4 := expand_avail t _ _ _ _ h3
    refine expand_le t ?_ _ _ _ h4
    have : avail t [s, b] = avail t [b, s] := by
      unfold avail
      congr 2
      ext y; simp; tauto
    have h5 := @avail_cons t [s] b _ (by simpa using hne) hb
    have h6 := avail_cons (List.not_mem_nil s) hs
    omega

/-! ## The header -/

/-- First inclusion: the guard is not yet defined, so every directive of the
header is obeyed. -/
theorem includeHeader_fresh (inc : Includes) (t : Table) (h : isDefined t guard = false) :
    includeHeader inc t =
      (ASYNCWEBSERVER_REGEX, []) :: (BOARD_MAX_SDMMC_FREQ, [.ident SDMMC_FREQ_DEFAULT]) ::
      (SDMMC_D1, [.num 4]) :: (SDMMC_D0, [.num 2]) :: (SDMMC_CLK, [.num 14]) ::
      (SDMMC_CMD, [.num 15]) :: (SDMMC_D3, [.num 13]) :: (SDMMC_D2, [.num 12]) ::
      (BOARD_HAS_SDMMC, []) :: inc "stdint.h" ((guard, []) :: t) := by
  simp [includeHeader, run, header, step, PP.active, h]

/-- Later inclusion: the guard is defined, so the whole group is skipped. -/
theorem includeHeader_guarded (inc : Includes) (t : Table) (h : isDefined t guard = true) :
    includeHeader inc t = t := by
  simp [includeHeader, run, header, step, PP.active, h]

/-- After a first inclusion the guard is defined, if the included file kept
it. -/
theorem guard_defined_after (inc : Includes) (t : Table)
    (hinc : keepsDefined inc "stdint.h" guard) (h : isDefined t guard = false) :
    isDefined (includeHeader inc t) guard = true := by
  have hg : isDefined (inc "stdint.h" ((guard, []) :: t)) guard = true :=
    hinc _ (by simp [isDefined, lookup])
  rw [includeHeader_fresh inc t h]
  simpa [isDefined, lookup, guard, ASYNCWEBSERVER_REGEX, BOARD_MAX_SDMMC_FREQ, SDMMC_D1,
    SDMMC_D0, SDMMC_CLK, SDMMC_CMD, SDMMC_D3, SDMMC_D2, BOARD_HAS_SDMMC] using hg

/-- The numbers the pin symbols stand for after a first inclusion. -/
theorem pinNumber_fresh (inc : Includes) (t : Table) (h : isDefined t guard = false) :
    pinNumber (includeHeader inc t) SDMMC_D2 = some 12 ∧
    pinNumber (includeHeader inc t) SDMMC_D3 = some 13 ∧
    pinNumber (includeHeader inc t) SDMMC_CMD = some 15 ∧
    pinNumber (includeHeader inc t) SDMMC_CLK = some 14 ∧
    pinNumber (includeHeader inc t) SDMMC_D0 = some 2 ∧
    pinNumber (includeHeader inc t) SDMMC_D1 = some 4 := by
  rw [includeHeader_fresh inc t h]
  simp [pinNumber, resolve, expand, expandWith, lookup, SDMMC_D2, ASYNCWEBSERVER_REGEX,
    BOARD_MAX_SDMMC_FREQ, SDMMC_D1, SDMMC_D0, SDMMC_CLK, SDMMC_CMD, SDMMC_D3]

/-! ## Claims -/

/-- C1: after the header has been processed (the guard was not defined
before), the six pin symbols resolve to the integers of the interface table:
SDMMC_D2 = 12, SDMMC_D3 = 13, SDMMC_CMD = 15, SDMMC_CLK = 14, SDMMC_D0 = 2 and
SDMMC_D1 = 4, whatever was defined before and whatever the included file
defines. -/
theorem pin_values (inc : Includes) (t : Table) (h : isDefined t guard = false) :
    pinNumber (includeHeader inc t) SDMMC_D2 = some 12 ∧
    pinNumber (includeHeader inc t) SDMMC_D3 = some 13 ∧
    pinNumber (includeHeader inc t) SDMMC_CMD = some 15 ∧
    pinNumber (includeHeader inc t) SDMMC_CLK = some 14 ∧
    pinNumber (includeHeader inc t) SDMMC_D0 = some 2 ∧
    pinNumber (includeHeader inc t) SDMMC_D1 = some 4 :=
  pinNumber_fresh inc t h

/-- The pin values at a first inclusion into an empty macro table. -/
theorem pin_values_witness :
    isDefined [] guard = false ∧
    pinNumber (includeHeader stdintSample []) SDMMC_D2 = some 12 ∧
    pinNumber (includeHeader stdintSample []) SDMMC_D3 = some 13 ∧
    pinNumber (includeHeader stdintSample []) SDMMC_CMD = some 15 ∧
    pinNumber (includeHeader stdintSample []) SDMMC_CLK = some 14 ∧
    pinNumber (includeHeader stdintSample []) SDMMC_D0 = some 2 ∧
    pinNumber (includeHeader stdintSample []) SDMMC_D1 = some 4 :=
  ⟨by decide, pin_values stdintSample [] (by decide)⟩

/-- C2: after the header has been processed, any two different symbols among
the six SDMMC pin symbols resolve to two different integers. -/
theorem pins_distinct (inc : Includes) (t : Table) (h : isDefined t guard = false)
    (a b : String) (ha : a ∈ sdmmcPins) (hb : b ∈ sdmmcPins) (hab : a ≠ b) :
    ∃ n m, pinNumber (includeHeader inc t) a = some n ∧
      pinNumber (includeHeader inc t) b = some m ∧ n ≠ m := by
  obtain ⟨h2, h3, hcmd, hclk, h0, h1⟩ := pinNumber_fresh inc t h
  simp only [sdmmcPins, List.mem_cons, List.mem_singleton, List.not_mem_nil, or_false] at ha hb
  rcases ha with rfl | rfl | rfl | rfl | rfl | rfl <;>
    rcases hb with rfl | rfl | rfl | rfl | rfl | rfl <;>
    first
      | exact absurd rfl hab
      | simp [h2, h3, hcmd, hclk, h0, h1]

/-- The data-0 pin and the clock pin differ. -/
theorem pins_distinct_witness :
    isDefined [] guard = false ∧ SDMMC_D0 ∈ sdmmcPins ∧ SDMMC_CLK ∈ sdmmcPins ∧
    SDMMC_D0 ≠ SDMMC_CLK ∧
    ∃ n m, pinNumber (includeHeader stdintSample []) SDMMC_D0 = some n ∧
      pinNumber (includeHeader stdintSample []) SDMMC_CLK = some m ∧ n ≠ m :=
  ⟨by decide, by decide, by decide, by decide,
    pins_distinct stdintSample [] (by decide) SDMMC_D0 SDMMC_CLK (by decide) (by decide)
      (by decide)⟩

/-- C3: after the header has been processed, BOARD_HAS_SDMMC and
ASYNCWEBSERVER_REGEX are both defined, each with an empty replacement list. -/
theorem feature_flags_defined (inc : Includes) (t : Table) (h : isDefined t guard = false) :
    isDefined (includeHeader inc t) BOARD_HAS_SDMMC = true ∧
    lookup (includeHeader inc t) BOARD_HAS_SDMMC = some [] ∧
    isDefined (includeHeader inc t) ASYNCWEBSERVER_REGEX = true ∧
    lookup (includeHeader inc t) ASYNCWEBSERVER_REGEX = some [] := by
  rw [includeHeader_fresh inc t h]
  simp [isDefined, lookup, SDMMC_D2, ASYNCWEBSERVER_REGEX, BOARD_MAX_SDMMC_FREQ, SDMMC_D1,
    SDMMC_D0, SDMMC_CLK, SDMMC_CMD, SDMMC_D3, BOARD_HAS_SDMMC]

/-- The feature flags at a first inclusion into an empty macro table. -/
theorem feature_flags_defined_witness :
    isDefined [] guard = false ∧
    isDefined (includeHeader stdintSample []) BOARD_HAS_SDMMC = true ∧
    lookup (includeHeader stdintSample []) BOARD_HAS_SDMMC = some [] ∧
    isDefined (includeHeader stdintSample []) ASYNCWEBSERVER_REGEX = true ∧
    lookup (includeHeader stdintSample []) ASYNCWEBSERVER_REGEX = some [] :=
  ⟨by decide, feature_flags_defined stdintSample [] (by decide)⟩

/-- C4: BOARD_MAX_SDMMC_FREQ is delegated to SDMMC_FREQ_DEFAULT.  No directive
of the header defines SDMMC_FREQ_DEFAULT; the header gives
BOARD_MAX_SDMMC_FREQ the one-token replacement list SDMMC_FREQ_DEFAULT, which
holds no number; and at every point of use where that definition is still in
force, whenever SDMMC_FREQ_DEFAULT resolves to a value (a token list with no
macro name left in it), BOARD_MAX_SDMMC_FREQ resolves to the same value. -/
theorem board_max_freq_delegated (inc : Includes) (t0 : Table)
    (h : isDefined t0 guard = false) :
    (∀ d ∈ header, ∀ body, d ≠ Directive.define SDMMC_FREQ_DEFAULT body) ∧
    lookup (includeHeader inc t0) BOARD_MAX_SDMMC_FREQ = some [.ident SDMMC_FREQ_DEFAULT] ∧
    ∀ (t : Table) (v : List Tok),
      lookup t BOARD_MAX_SDMMC_FREQ = lookup (includeHeader inc t0) BOARD_MAX_SDMMC_FREQ →
      resolve t SDMMC_FREQ_DEFAULT = some v → fullyExpanded t v →
      resolve t BOARD_MAX_SDMMC_FREQ = some v := by
  have hB : lookup (includeHeader inc t0) BOARD_MAX_SDMMC_FREQ =
      some [.ident SDMMC_FREQ_DEFAULT] := by
    rw [includeHeader_fresh inc t0 h]
    simp [lookup, ASYNCWEBSERVER_REGEX, BOARD_MAX_SDMMC_FREQ]
  refine ⟨?_, hB, ?_⟩
  · intro d hd body hEq
    subst hEq
    simp [header, SDMMC_FREQ_DEFAULT, guard, BOARD_HAS_SDMMC, SDMMC_D2, SDMMC_D3, SDMMC_CMD,
      SDMMC_CLK, SDMMC_D0, SDMMC_D1, BOARD_MAX_SDMMC_FREQ, ASYNCWEBSERVER_REGEX] at hd
  intro t v ht hv hfree
  exact resolve_alias t BOARD_MAX_SDMMC_FREQ SDMMC_FREQ_DEFAULT v (by decide) (ht.trans hB)
    hv hfree

/-- With SDMMC_FREQ_DEFAULT defined as 20000 before the header is included,
BOARD_MAX_SDMMC_FREQ resolves to 20000. -/
theorem board_max_freq_delegated_witness :
    isDefined [(SDMMC_FREQ_DEFAULT, [Tok.num 20000])] guard = false ∧
    resolve (includeHeader stdintSample [(SDMMC_FREQ_DEFAULT, [Tok.num 20000])])
      SDMMC_FREQ_DEFAULT = some [Tok.num 20000] ∧
    fullyExpanded (includeHeader stdintSample [(SDMMC_FREQ_DEFAULT, [Tok.num 20000])])
      [Tok.num 20000] ∧
    resolve (includeHeader stdintSample [(SDMMC_FREQ_DEFAULT, [Tok.num 20000])])
      BOARD_MAX_SDMMC_FREQ = some [Tok.num 20000] :=
  ⟨by decide, by decide, by simp [fullyExpanded],
    (board_max_freq_delegated stdintSample [(SDMMC_FREQ_DEFAULT, [Tok.num 20000])]
      (by decide)).2.2 _ _ rfl (by decide) (by simp [fullyExpanded])⟩

/-- C5: including the header is idempotent.  Provided the file that the
header includes does not undefine the guard io_pin_remap_h, a second
inclusion leaves the macro table exactly as the first one left it. -/
theorem include_idempotent (inc : Includes) (t : Table)
    (hinc : keepsDefined inc "stdint.h" guard) :
    includeHeader inc (includeHeader inc t) = includeHeader inc t := by
  cases h : isDefined t guard with
  | true => rw [includeHeader_guarded inc t h, includeHeader_guarded inc t h]
  | false => exact includeHeader_guarded inc _ (guard_defined_after inc t hinc h)

/-- Two inclusions in a row, starting from an empty macro table. -/
theorem include_idempotent_witness :
    keepsDefined stdintSample "stdint.h" guard ∧
    includeHeader stdintSample (includeHeader stdintSample []) =
      includeHeader stdintSample [] :=
  have hk : keepsDefined stdintSample "stdint.h" guard := by
    intro t ht
    simpa [stdintSample, isDefined, lookup, guard] using ht
  ⟨hk, include_idempotent stdintSample [] hk⟩

end IoPinRemap
